import Mathlib

/-!
# Verification of the remolt core against its specification

This file gives a shallow embedding, in Lean 4, of the parts of the remolt
interpreter relevant to the checked claims:

* `src/molt/src/tokenizer.rs` — the `Tokenizer` cursor type and its
  `backslash_subst` escape decoder;
* `src/molt/src/parser.rs` — the script parser (`parse_braced_word`,
  `parse_quoted_word`, `parse_bare_word`, `parse_next_word`,
  `parse_brackets`, `parse_dollar`, `parse_varname`,
  `parse_varname_literal`, `parse_command`, `parse_script`, and the
  `Tokens` accumulator);
* `src/molt/src/types.rs` — `ResultCode` (with its `Display`/`FromStr`
  instances and `as_int`), `Exception` (with its constructors and
  `decrement_level`), `ErrorData`, and `Subcommand::find`.

Conventions of the embedding:

* Rust strings are embedded as `List Char` (the sequence of Unicode scalar
  values) or `String`; byte indices, where the source manipulates them, are
  tracked explicitly via `Char.utf8Size`.
* A Rust panic (a failed `assert!`, an `unwrap` of an `Err`, an
  out-of-bounds or non-boundary string slice) is modelled as `none` /
  `.panic`: a panicking execution produces no value.
* `molt_err!(msg)` produces an error `Exception` whose value is `msg`; in
  the parser embedding an error exception is carried as `.err msg`.
* The parser in the source drives the tokenizer through the `EvalPtr`
  helper type, whose file (`eval_ptr.rs`) is not among the repository files
  provided; its small predicates (line/block whitespace, end-of-command,
  end-of-script, varname characters) are modelled from the spec, and each
  such definition is marked `Modelled from the spec:` in its doc comment.
* The recursive-descent parser is embedded with an explicit fuel parameter
  (`.fuelErr` on exhaustion): the mutual recursion of words and nested
  bracketed scripts is not structurally decreasing, and fuel keeps every
  definition executable.  Theorems either hold for every fuel or use a
  concrete, sufficient fuel.
-/

/-! ## Character classes and UTF-8 byte arithmetic -/

/-- `char::is_digit(8)` restricted to what octal escapes use. -/
def isOctDigit (c : Char) : Bool :=
  '0' ≤ c && c ≤ '7'

/-- `char::is_ascii_hexdigit`. -/
def isHexDigit (c : Char) : Bool :=
  ('0' ≤ c && c ≤ '9') || ('a' ≤ c && c ≤ 'f') || ('A' ≤ c && c ≤ 'F')

/-- The numeric value of one digit character (used for radix 8 and 16). -/
def digitVal (c : Char) : Nat :=
  if '0' ≤ c && c ≤ '9' then c.toNat - '0'.toNat
  else if 'a' ≤ c && c ≤ 'f' then c.toNat - 'a'.toNat + 10
  else if 'A' ≤ c && c ≤ 'F' then c.toNat - 'A'.toNat + 10
  else 0

/-- `u8/u32::from_str_radix` on a digit list: the value of the digits read
in the given radix. -/
def radixVal (radix : Nat) : List Char → Nat → Nat
  | [], acc => acc
  | c :: rest, acc => radixVal radix rest (acc * radix + digitVal c)

/-- Total UTF-8 byte length of a character sequence (`str::len`). -/
def utf8Len (s : List Char) : Nat :=
  (s.map Char.utf8Size).sum

/-- Dropping `k` BYTES from a character sequence: `some` suffix when `k`
lands exactly on a character boundary within the sequence, `none` (the
panic of a Rust string slice `&s[k..]`) otherwise. -/
def dropBytes : List Char → Nat → Option (List Char)
  | s, 0 => some s
  | [], _ + 1 => none
  | c :: rest, k + 1 =>
    if k + 1 < c.utf8Size then none
    else dropBytes rest (k + 1 - c.utf8Size)

theorem utf8Size_pos (c : Char) : 0 < c.utf8Size := by
  have := Char.utf8Size_pos c
  omega

theorem utf8Len_append (a b : List Char) :
    utf8Len (a ++ b) = utf8Len a + utf8Len b := by
  simp [utf8Len]

/-- Dropping exactly the bytes of a prefix succeeds and yields the suffix. -/
theorem dropBytes_exact (a b : List Char) :
    dropBytes (a ++ b) (utf8Len a) = some b := by
  induction a with
  | nil => simp [utf8Len, dropBytes]
  | cons c rest ih =>
    have hc := utf8Size_pos c
    have hlen : utf8Len (c :: rest) = c.utf8Size + utf8Len rest := by
      simp [utf8Len]
    rw [hlen]
    obtain ⟨k, hk⟩ : ∃ k, c.utf8Size + utf8Len rest = k + 1 :=
      ⟨c.utf8Size + utf8Len rest - 1, by omega⟩
    rw [hk]
    show dropBytes (c :: (rest ++ b)) (k + 1) = some b
    rw [dropBytes]
    have hnot : ¬ (k + 1 < c.utf8Size) := by omega
    rw [if_neg hnot]
    have : k + 1 - c.utf8Size = utf8Len rest := by omega
    rw [this, ih]

/-- Taking `k` BYTES from a character sequence: `some` prefix when `k` lands
exactly on a character boundary, `none` (a panicking slice) otherwise. -/
def takeBytes : List Char → Nat → Option (List Char)
  | _, 0 => some []
  | [], _ + 1 => none
  | c :: rest, k + 1 =>
    if k + 1 < c.utf8Size then none
    else (takeBytes rest (k + 1 - c.utf8Size)).map fun l => c :: l

/-- Taking exactly the bytes of a prefix succeeds and yields the prefix. -/
theorem takeBytes_exact (a b : List Char) :
    takeBytes (a ++ b) (utf8Len a) = some a := by
  induction a with
  | nil => simp [utf8Len, takeBytes]
  | cons c rest ih =>
    have hc := utf8Size_pos c
    have hlen : utf8Len (c :: rest) = c.utf8Size + utf8Len rest := by
      simp [utf8Len]
    rw [hlen]
    obtain ⟨k, hk⟩ : ∃ k, c.utf8Size + utf8Len rest = k + 1 :=
      ⟨c.utf8Size + utf8Len rest - 1, by omega⟩
    rw [hk]
    show takeBytes (c :: (rest ++ b)) (k + 1) = some (c :: rest)
    rw [takeBytes]
    have hnot : ¬ (k + 1 < c.utf8Size) := by omega
    rw [if_neg hnot]
    have : k + 1 - c.utf8Size = utf8Len rest := by omega
    rw [this, ih]
    rfl

/-! ## The Tokenizer (src/molt/src/tokenizer.rs)

The Rust struct holds the borrowed input, the byte index of the next
character, and a character iterator positioned there.  The embedding keeps
the full input, the byte index, and the list of remaining characters. -/

structure Tokenizer where
  input : List Char
  index : Nat
  chars : List Char
deriving Repr, DecidableEq

/-- `Tokenizer::new`. -/
def Tokenizer.new (input : List Char) : Tokenizer := ⟨input, 0, input⟩

/-- `Tokenizer::next`: returns the next character and advances the byte
index by its UTF-8 size. -/
def Tokenizer.next (t : Tokenizer) : Option Char × Tokenizer :=
  match t.chars with
  | [] => (none, t)
  | c :: rest => (some c, ⟨t.input, t.index + c.utf8Size, rest⟩)

/-- `Tokenizer::skip`. -/
def Tokenizer.skip (t : Tokenizer) : Tokenizer := t.next.2

/-- `Tokenizer::skip_over`. -/
def Tokenizer.skip_over (t : Tokenizer) : Nat → Tokenizer
  | 0 => t
  | n + 1 => t.skip.skip_over n

/-- `Tokenizer::skip_while`. -/
def Tokenizer.skip_while (p : Char → Bool) : Tokenizer → Tokenizer
  | ⟨inp, idx, []⟩ => ⟨inp, idx, []⟩
  | ⟨inp, idx, c :: rest⟩ =>
    if p c then Tokenizer.skip_while p ⟨inp, idx + c.utf8Size, rest⟩
    else ⟨inp, idx, c :: rest⟩
termination_by t => t.chars.length

/-- `Tokenizer::mark`. -/
def Tokenizer.mark (t : Tokenizer) : Nat := t.index

/-- `Tokenizer::reset_to`: re-slices the input at the given byte mark.
`none` models the panic of `&input[mark..]` when `mark` is not a character
boundary of the input. -/
def Tokenizer.reset_to (t : Tokenizer) (mark : Nat) : Option Tokenizer :=
  (dropBytes t.input mark).map fun rest => ⟨t.input, mark, rest⟩

/-- The byte slice `&input[mark..idx]` with the `assert!(mark <= idx)` of
`token`/`token2`: `none` models a panic. -/
def tokenSlice (input : List Char) (mark idx : Nat) : Option (List Char) :=
  if mark ≤ idx then
    (dropBytes input mark).bind fun suffix => takeBytes suffix (idx - mark)
  else none

/-- `Tokenizer::as_str`: the remainder of the input from the index. -/
def Tokenizer.as_str (t : Tokenizer) : Option (List Char) :=
  dropBytes t.input t.index

/-- `Tokenizer::token`. -/
def Tokenizer.token (t : Tokenizer) (mark : Nat) : Option (List Char) :=
  tokenSlice t.input mark t.index

/-- `Tokenizer::token2`. -/
def Tokenizer.token2 (t : Tokenizer) (mark idx : Nat) : Option (List Char) :=
  tokenSlice t.input mark idx

/-- The body of `Tokenizer::backslash_subst` after the backslash has been
skipped (`idx1` is the byte index just past it).  Faithful to the source:
a lone trailing backslash yields the backslash; octal escapes consume at
most three octal digits in total and feed them to `u8::from_str_radix`,
whose `Err` the source `unwrap`s — a value above 255 is therefore a
panic, `none`; hex escapes consume up to 2/4/8 digits after `x`/`u`/`U`,
fall back to the letter itself when no digit follows, and reset to the
post-letter mark when the value is not a valid scalar. -/
def bsubstAfter (input : List Char) (idx1 : Nat) :
    List Char → Option (Char × Tokenizer)
  | [] => some ('\\', ⟨input, idx1, []⟩)
  | c :: rest =>
      let t2 : Tokenizer := ⟨input, idx1 + c.utf8Size, rest⟩
      if c = 'a' then some ('\x07', t2)
      else if c = 'b' then some ('\x08', t2)
      else if c = 'f' then some ('\x0c', t2)
      else if c = 'n' then some ('\n', t2)
      else if c = 'r' then some ('\r', t2)
      else if c = 't' then some ('\t', t2)
      else if c = 'v' then some ('\x0b', t2)
      else if isOctDigit c then
        let ds := (rest.takeWhile isOctDigit).take 2
        let t3 : Tokenizer := ⟨input, t2.index + utf8Len ds, rest.drop ds.length⟩
        let val := radixVal 8 (c :: ds) 0
        if val ≤ 255 then some (Char.ofNat val, t3) else none
      else if c = 'x' || c = 'u' || c = 'U' then
        let hexMark := t2.index
        let maxd : Nat := if c = 'x' then 2 else if c = 'u' then 4 else 8
        let hs := (rest.takeWhile isHexDigit).take maxd
        if hs = [] then some (c, t2)
        else
          let t3 : Tokenizer := ⟨input, t2.index + utf8Len hs, rest.drop hs.length⟩
          let val := radixVal 16 hs 0
          if val.isValidChar then some (Char.ofNat val, t3)
          else (t3.reset_to hexMark).map fun t4 => (c, t4)
      else some (c, t2)

/-- `Tokenizer::backslash_subst`: skip the backslash (`skip_char('\\')`
panics, `none`, on any other input) and decode what follows. -/
def Tokenizer.backslash_subst (t : Tokenizer) : Option (Char × Tokenizer) :=
  match t.chars with
  | '\\' :: rest0 => bsubstAfter t.input (t.index + 1) rest0
  | _ => none

/-! ## Decimal rendering and integer parsing -/

/-- An ASCII decimal digit. -/
def isDecDigit (c : Char) : Bool :=
  '0' ≤ c && c ≤ '9'

/-- The decimal digits of a natural number, most significant first
(`{}` formatting of an unsigned integer in Rust). -/
def natDecDigits (n : Nat) : List Char :=
  if h : n < 10 then [Char.ofNat (48 + n)]
  else natDecDigits (n / 10) ++ [Char.ofNat (48 + n % 10)]
decreasing_by exact Nat.div_lt_self (by omega) (by omega)

/-- `{}` formatting of a signed integer in Rust: minus sign, then the
decimal digits of the absolute value. -/
def intRepr (n : Int) : String :=
  if n < 0 then "-" ++ String.mk (natDecDigits n.natAbs)
  else String.mk (natDecDigits n.natAbs)

/-- Is `c` a digit of the given radix, as the spec's integer grammar
reads digits (hex digits both cases; otherwise decimal digits below the
radix)? -/
def isRadixDigit (radix : Nat) (c : Char) : Bool :=
  if radix = 16 then isHexDigit c else isDecDigit c && digitVal c < radix

/-- The spec's optional sign: a leading `-` negates, a leading `+` is
consumed (part of the spec-modelled `get_int` below). -/
def stripSign (cs : List Char) : Bool × List Char :=
  if cs.take 1 = ['-'] then (true, cs.tail)
  else if cs.take 1 = ['+'] then (false, cs.tail)
  else (false, cs)

/-- The spec's radix prefixes: `0x`/`0X` hex, `0o` octal, `0b` binary,
else plain decimal. -/
def stripRadix (cs : List Char) : Nat × List Char :=
  if cs.take 2 = ['0', 'x'] ∨ cs.take 2 = ['0', 'X'] then (16, cs.drop 2)
  else if cs.take 2 = ['0', 'o'] then (8, cs.drop 2)
  else if cs.take 2 = ['0', 'b'] then (2, cs.drop 2)
  else (10, cs)

/-- Modelled from the spec: `Value::get_int` lives in
`src/molt/src/value.rs`, which is not among the provided source files.
Spec §4.3: "Integer parsing accepts optional sign, optional `0x`/`0X`
prefix for hex, `0o` for octal, `0b` for binary, plain decimal otherwise";
§7: a failed coercion is the typed error `expected integer but got "..."`. -/
def get_int (s : String) : Except String Int :=
  let p1 := stripSign s.data
  let p2 := stripRadix p1.2
  if p2.2 ≠ [] ∧ p2.2.all (isRadixDigit p2.1) = true then
    let v : Int := Int.ofNat (radixVal p2.1 p2.2 0)
    .ok (if p1.1 then -v else v)
  else .error ("expected integer but got \"" ++ s ++ "\"")

/-! ## ResultCode (src/molt/src/types.rs) -/

/-- `ResultCode`.  `Okay`, `Error`, `Return`, `Break`, `Continue` are named
`okay`, `error`, `ret`, `brk`, `cont` (the Rust names are Lean keywords);
`Other(MoltInt)` carries an integer. -/
inductive ResultCode where
  | okay
  | error
  | ret
  | brk
  | cont
  | other (code : Int)
deriving Repr, DecidableEq

/-- `impl fmt::Display for ResultCode`. -/
def ResultCode.display : ResultCode → String
  | .okay => "ok"
  | .error => "error"
  | .ret => "return"
  | .brk => "break"
  | .cont => "continue"
  | .other code => intRepr code

/-- `impl FromStr for ResultCode`: the five keywords, else `Value::get_int`
and the numeric mapping 0–4, any other number `Other`. -/
def ResultCode.from_str (value : String) : Except String ResultCode :=
  if value = "ok" then .ok .okay
  else if value = "error" then .ok .error
  else if value = "return" then .ok .ret
  else if value = "break" then .ok .brk
  else if value = "continue" then .ok .cont
  else
    match get_int value with
    | .ok num =>
      if num = 0 then .ok .okay
      else if num = 1 then .ok .error
      else if num = 2 then .ok .ret
      else if num = 3 then .ok .brk
      else if num = 4 then .ok .cont
      else .ok (.other num)
    | .error msg => .error msg

/-- `ResultCode::as_int`. -/
def ResultCode.as_int : ResultCode → Int
  | .okay => 0
  | .error => 1
  | .ret => 2
  | .brk => 3
  | .cont => 4
  | .other num => num

/-! ## Exception (src/molt/src/types.rs)

`Value` fields are embedded as `String` (per the spec a Value is
semantically its canonical string).  The `error-stack-trace` feature's
fields are included. -/

structure ErrorData where
  error_code : String
  stack_trace : List String
  is_new : Bool
deriving Repr, DecidableEq

/-- `ErrorData::new`: marked new, trace holds just the error message. -/
def ErrorData.new (error_code : String) (error_msg : String) : ErrorData :=
  ⟨error_code, [error_msg], true⟩

/-- `ErrorData::rethrow`: marked not-new, trace holds the given info. -/
def ErrorData.rethrow (error_code : String) (error_info : String) : ErrorData :=
  ⟨error_code, [error_info], false⟩

structure Exception where
  code : ResultCode
  value : Option String
  level : Nat
  next_code : ResultCode
  error_data : Option ErrorData
deriving Repr, DecidableEq

/-- `Exception::molt_err`. -/
def Exception.molt_err (msg : String) : Exception :=
  { code := .error, value := some msg, level := 0, next_code := .error,
    error_data := some (ErrorData.new "NONE" msg) }

/-- `Exception::molt_err2`. -/
def Exception.molt_err2 (error_code : String) (msg : String) : Exception :=
  { code := .error, value := some msg, level := 0, next_code := .error,
    error_data := some (ErrorData.new error_code msg) }

/-- `Exception::molt_return_ext`; `none` models the failed
`assert!(level > 0 || next_code != ResultCode::Okay)`. -/
def Exception.molt_return_ext (value : Option String) (level : Nat)
    (next_code : ResultCode) : Option Exception :=
  if level > 0 ∨ next_code ≠ .okay then
    some { code := if level > 0 then .ret else next_code,
           value := value, level := level, next_code := next_code,
           error_data := none }
  else none

/-- `Exception::molt_return`. -/
def Exception.molt_return (value : String) : Option Exception :=
  Exception.molt_return_ext (some value) 1 .okay

/-- `Exception::molt_return_err`. -/
def Exception.molt_return_err (msg : Option String) (level : Nat)
    (error_code : Option String) (error_info : Option String) : Exception :=
  { code := if level = 0 then .error else .ret,
    value := msg, level := level, next_code := .error,
    error_data := some (ErrorData.rethrow (error_code.getD "NONE")
      (error_info.getD "")) }

/-- `Exception::molt_break`. -/
def Exception.molt_break : Exception :=
  { code := .brk, value := none, level := 0, next_code := .brk,
    error_data := none }

/-- `Exception::molt_continue`. -/
def Exception.molt_continue : Exception :=
  { code := .cont, value := none, level := 0, next_code := .cont,
    error_data := none }

/-- `Exception::decrement_level`; `none` models the failed
`assert!(code == Return && level > 0)`.  The level is decremented; when it
reaches zero the code becomes `next_code`, otherwise it is unchanged. -/
def Exception.decrement_level (e : Exception) : Option Exception :=
  if e.code = .ret ∧ e.level > 0 then
    some { e with
            level := e.level - 1,
            code := if e.level - 1 = 0 then e.next_code else e.code }
  else none

/-! ## Subcommand::find (src/molt/src/types.rs)

An ensemble table is embedded as the list of its subcommand names (the
paired `CommandFunc` function pointers play no part in `find`'s control
flow); the found entry is returned as its index in the table. -/

/-- The first index whose entry equals `sub_name` (the `for` loop of
`Subcommand::find`). -/
def findIdx (sub_name : String) : List String → Option Nat
  | [] => none
  | a :: rest =>
    if a = sub_name then some 0
    else (findIdx sub_name rest).map (· + 1)

/-- `Vec::join(", ")`. -/
def joinSep : List String → String
  | [] => ""
  | [a] => a
  | a :: rest => a ++ ", " ++ joinSep rest

/-- The error message `Subcommand::find` builds on a miss, exactly as the
source pushes its pieces. -/
def Subcommand.findMsg (names : List String) (sub_name : String) : String :=
  match names with
  | [] => ""
  | e0 :: _ =>
    let len := names.length
    let last := len - 1
    "unknown or ambiguous subcommand \"" ++ sub_name ++ "\": must be " ++ e0
      ++ (if len > 1 then ", " else "")
      ++ (if len > 2 then joinSep ((names.drop 1).take (last - 1)) else "")
      ++ (if len > 1 then ", or " ++ names.getLastD "" else "")

/-- `Subcommand::find`: the first exact match, else the miss message;
`none` models the `ensemble[0]` panic on an empty table. -/
def Subcommand.find (names : List String) (sub_name : String) :
    Option (Except String Nat) :=
  match findIdx sub_name names with
  | some i => some (.ok i)
  | none =>
    match names with
    | [] => none
    | _ :: _ => some (.error (Subcommand.findMsg names sub_name))

/-! ## EvalPtr predicates

`parser.rs` drives the tokenizer through the `EvalPtr` wrapper
(`eval_ptr.rs`, not among the provided source files).  The parser state is
embedded as the list of remaining characters plus the bracket-termination
flag, passed explicitly.  The small predicates below are modelled from the
spec. -/

/-- Modelled from the spec: `EvalPtr::next_is_line_white`'s character
class (`eval_ptr.rs`/`util.rs` are not in the provided sources).  Spec
§4.2: "Within a command, words are separated by horizontal whitespace (not
newline, not semicolon)". -/
def isLineWhite (c : Char) : Bool :=
  c = ' ' || c = '\t'

/-- Modelled from the spec: `EvalPtr::next_is_block_white`'s character
class — the word-separating whitespace plus the newline that separates
commands (spec §4.2). -/
def isBlockWhite (c : Char) : Bool :=
  c = ' ' || c = '\t' || c = '\n'

/-- Modelled from the spec: `util::is_varname_char` (spec §4.2: "Name
characters are letters, digits, underscore"). -/
def isVarnameChar (c : Char) : Bool :=
  c.isAlphanum || c = '_'

/-- `EvalPtr::next_is`. -/
def nextIs (c : Char) : List Char → Bool
  | [] => false
  | a :: _ => a = c

/-- `EvalPtr::next_is_line_white`. -/
def nextIsLineWhite : List Char → Bool
  | [] => false
  | c :: _ => isLineWhite c

/-- `EvalPtr::next_is_block_white`. -/
def nextIsBlockWhite : List Char → Bool
  | [] => false
  | c :: _ => isBlockWhite c

/-- Modelled from the spec: `EvalPtr::at_end_of_script` — true at end of
input, or at `]` in bracket-terminated mode (spec §4.2: "`[` opens a
nested script; parsing recurses in 'bracket-terminated' mode until a
matching `]`"). -/
def atEndOfScript (bt : Bool) (s : List Char) : Bool :=
  s.isEmpty || (bt && nextIs ']' s)

/-- Modelled from the spec: `EvalPtr::at_end_of_command` — spec §4.2:
"Newline/semicolon/end-of-input terminate the command" (plus `]` in
bracket-terminated mode). -/
def atEndOfCommand (bt : Bool) (s : List Char) : Bool :=
  atEndOfScript bt s || nextIs ';' s || nextIs '\n' s

/-! ## The parsed internal form (src/molt/src/parser.rs) -/

/-- `Word`, the parsed unit of a command.  A `Script` is its list of
commands, each a list of words (`Script`/`WordVec` hold nothing else).
`Word::Value`'s `Value` is embedded as its string; `Word::String` is the
`str` constructor. -/
inductive Word where
  | value : String → Word
  | varRef : String → Word
  | arrayRef : String → Word → Word
  | script : List (List Word) → Word
  | tokens : List Word → Word
  | expand : Word → Word
  | str : String → Word
deriving Repr

/-- `VarName` (src/molt/src/types.rs). -/
structure VarName where
  name : String
  index : Option String
deriving Repr, DecidableEq

/-- `VarName::scalar`. -/
def VarName.scalar (name : String) : VarName := ⟨name, none⟩

/-- `VarName::array`. -/
def VarName.array (name : String) (index : String) : VarName :=
  ⟨name, some index⟩

/-- The `Tokens` accumulator of parser.rs. -/
structure Tokens where
  list : List Word
  got_string : Bool
  string : String

/-- `Tokens::new`. -/
def Tokens.new : Tokens := ⟨[], false, ""⟩

/-- `Tokens::push`: flush the accumulated string literal, then append the
word. -/
def Tokens.push (t : Tokens) (word : Word) : Tokens :=
  if t.got_string then
    { list := t.list ++ [Word.str t.string, word], got_string := false,
      string := "" }
  else { t with list := t.list ++ [word] }

/-- `Tokens::push_str`. -/
def Tokens.push_str (t : Tokens) (s : String) : Tokens :=
  { t with string := t.string ++ s, got_string := true }

/-- `Tokens::push_char`. -/
def Tokens.push_char (t : Tokens) (c : Char) : Tokens :=
  { t with string := t.string.push c, got_string := true }

/-- `Tokens::take`. -/
def Tokens.take (t : Tokens) : Word :=
  if t.got_string && t.list.isEmpty then Word.value t.string
  else
    let l := if t.got_string then t.list ++ [Word.str t.string] else t.list
    match l with
    | [] => Word.value ""
    | [w] => w
    | _ => Word.tokens l

/-- `parse_varname_literal` (parser.rs).  The quirk of the source is kept:
`chars_left` is the BYTE length of the text after `(` minus one, but that
many CHARACTERS are skipped before testing for the closing `)`. -/
def parse_varname_literal (lit : List Char) : VarName :=
  let name := lit.takeWhile (· ≠ '(')
  let rest := lit.dropWhile (· ≠ '(')
  match rest with
  | [] => VarName.scalar ⟨lit⟩
  | _ :: rest2 =>
    if rest2.isEmpty then VarName.scalar ⟨lit⟩
    else
      let chars_left := utf8Len rest2 - 1
      let idx := rest2.take chars_left
      if nextIs ')' (rest2.drop chars_left) then VarName.array ⟨name⟩ ⟨idx⟩
      else VarName.scalar ⟨lit⟩

/-! ## The word and script parsers (src/molt/src/parser.rs) -/

/-- How a parser run can fail: a Molt parse error (`molt_err!(msg)`, an
error `Exception` whose value is `msg`), a Rust panic, or fuel
exhaustion of the embedding. -/
inductive PErr where
  | err (msg : String)
  | panic
  | fuelOut
deriving Repr, DecidableEq

/-- `Tokenizer::backslash_subst` acting on the remaining-characters view
used by the word parsers: the returned character and the characters left.
Exactly `Tokenizer.backslash_subst` run at the remaining input. -/
def bsubstL (s : List Char) : Option (Char × List Char) :=
  (Tokenizer.backslash_subst ⟨s, 0, s⟩).map fun p => (p.1, p.2.chars)

mutual

/-- The `while` loop of `parse_braced_word`: `count` open braces are
unmatched, `text` has been accumulated.  The `token(start)` slices of the
source are embedded by accumulating each consumed character directly.
The backslash branch (skip the backslash, consume the escaped character,
turning backslash-newline into a space) is split into `parseBracedEsc`. -/

def parseBracedLoop (bt : Bool) (count : Nat) (text : List Char) :
    List Char → Except PErr (Word × List Char)
  | [] => .error (.err "missing close-brace")
  | c :: rest =>
    if c = '{' then parseBracedLoop bt (count + 1) (text ++ [c]) rest
    else if c = '}' then
      if count - 1 > 0 then parseBracedLoop bt (count - 1) (text ++ [c]) rest
      else if atEndOfCommand bt rest || nextIsLineWhite rest then
        .ok (Word.value ⟨text⟩, rest)
      else .error (.err "extra characters after close-brace")
    else if c = '\\' then parseBracedEsc bt count text rest
    else parseBracedLoop bt count (text ++ [c]) rest

/-- The `next_is('\\')` branch of the loop: the backslash has been
consumed; when no character follows, the loop exits at end of input and
reports the missing close brace. -/
def parseBracedEsc (bt : Bool) (count : Nat) (text : List Char) :
    List Char → Except PErr (Word × List Char)
  | [] => .error (.err "missing close-brace")
  | ch :: rest2 =>
    parseBracedLoop bt count
      (text ++ (if ch = '\n' then [' '] else ['\\', ch])) rest2

end

/-- `parse_braced_word`: skips the opening brace (`skip_char('{')` panics
on anything else) and runs the loop with one unmatched brace. -/
def parse_braced_word (bt : Bool) : List Char → Except PErr (Word × List Char)
  | '{' :: rest => parseBracedLoop bt 1 [] rest
  | _ => .error .panic

/-- `if start != ctx.mark() { tokens.push_str(ctx.token(start)) }`: the
pending literal run is the characters consumed since the last mark. -/
def flushPending (toks : Tokens) (pending : List Char) : Tokens :=
  if pending.isEmpty then toks else toks.push_str ⟨pending⟩

/-- `EvalPtr::next_is_varname_char`. -/
def nextIsVarnameChar : List Char → Bool
  | [] => false
  | c :: _ => isVarnameChar c

mutual

/-- `parse_script` (also the body of `parse`): commands until end of
script. -/
def parse_script (fuel : Nat) (bt : Bool) (s : List Char) :
    Except PErr (List (List Word) × List Char) :=
  match fuel with
  | 0 => .error .fuelOut
  | f + 1 => parseScriptLoop f bt [] s

/-- The `while !ctx.at_end_of_script()` loop of `parse_script`. -/
def parseScriptLoop (fuel : Nat) (bt : Bool) (acc : List (List Word))
    (s : List Char) : Except PErr (List (List Word) × List Char) :=
  match fuel with
  | 0 => .error .fuelOut
  | f + 1 =>
    if atEndOfScript bt s then .ok (acc, s)
    else
      match parse_command f bt s with
      | .error e => .error e
      | .ok (cmd, s1) => parseScriptLoop f bt (acc ++ [cmd]) s1

/-- `parse_command`: leading whitespace and comments, the words of the
command, then a trailing `;` is consumed. -/
def parse_command (fuel : Nat) (bt : Bool) (s : List Char) :
    Except PErr (List Word × List Char) :=
  match fuel with
  | 0 => .error .fuelOut
  | f + 1 =>
    match parseCommandPrefix f bt s with
    | .error e => .error e
    | .ok s1 =>
      match parseCommandWords f bt [] s1 with
      | .error e => .error e
      | .ok (words, s2) =>
        .ok (words, if nextIs ';' s2 then s2.tail else s2)

/-- The whitespace-and-comments loop at the head of `parse_command`.
`skip_block_white` and `skip_comment` are modelled from the spec (§4.2:
"Lines beginning with `#` (after optional whitespace, at a command
boundary) are comments and skipped through end-of-line"). -/
def parseCommandPrefix (fuel : Nat) (bt : Bool) (s : List Char) :
    Except PErr (List Char) :=
  match fuel with
  | 0 => .error .fuelOut
  | f + 1 =>
    if atEndOfScript bt s then .ok s
    else
      let sw := s.dropWhile isBlockWhite
      if nextIs '#' sw then
        parseCommandPrefix f bt (sw.dropWhile (fun c => c ≠ '\n'))
      else .ok sw

/-- The word loop of `parse_command`: words and the line whitespace after
each, until the end of the command. -/
def parseCommandWords (fuel : Nat) (bt : Bool) (acc : List Word)
    (s : List Char) : Except PErr (List Word × List Char) :=
  match fuel with
  | 0 => .error .fuelOut
  | f + 1 =>
    if atEndOfCommand bt s then .ok (acc, s)
    else
      match parse_next_word f bt s with
      | .error e => .error e
      | .ok (w, s1) => parseCommandWords f bt (acc ++ [w]) (s1.dropWhile isLineWhite)

/-- `parse_next_word`: the `{*}` expansion operator, else braced, quoted,
or bare word. -/
def parse_next_word (fuel : Nat) (bt : Bool) (s : List Char) :
    Except PErr (Word × List Char) :=
  match fuel with
  | 0 => .error .fuelOut
  | f + 1 =>
    if nextIs '{' s then
      if s.take 3 = ['{', '*', '}'] then
        let s3 := s.drop 3
        if s3.isEmpty || nextIsBlockWhite s3 then .ok (Word.value "*", s3)
        else
          match parse_next_word f bt s3 with
          | .error e => .error e
          | .ok (w, s4) => .ok (Word.expand w, s4)
      else parse_braced_word bt s
    else if nextIs '"' s then parse_quoted_word f bt s
    else parse_bare_word f bt false s

/-- `parse_quoted_word`: consumes the opening quote and runs the loop. -/
def parse_quoted_word (fuel : Nat) (bt : Bool) (s : List Char) :
    Except PErr (Word × List Char) :=
  match fuel with
  | 0 => .error .fuelOut
  | f + 1 => parseQuotedLoop f bt Tokens.new [] s.tail

/-- The token loop of `parse_quoted_word`. -/
def parseQuotedLoop (fuel : Nat) (bt : Bool) (toks : Tokens)
    (pending : List Char) (s : List Char) : Except PErr (Word × List Char) :=
  match fuel with
  | 0 => .error .fuelOut
  | f + 1 =>
    match s with
    | [] => .error (.err "missing \"")
    | c :: rest =>
      if c = '[' then
        match parse_brackets f bt (c :: rest) with
        | .error e => .error e
        | .ok (scr, s1) =>
          parseQuotedLoop f bt ((flushPending toks pending).push (Word.script scr)) [] s1
      else if c = '$' then
        match parse_dollar f bt (flushPending toks pending) (c :: rest) with
        | .error e => .error e
        | .ok (toks1, s1) => parseQuotedLoop f bt toks1 [] s1
      else if c = '\\' then
        match bsubstL (c :: rest) with
        | none => .error .panic
        | some (ch, s1) =>
          parseQuotedLoop f bt ((flushPending toks pending).push_char ch) [] s1
      else if c = '"' then
        if !(atEndOfCommand bt rest) && !(nextIsLineWhite rest) then
          .error (.err "extra characters after close-quote")
        else .ok ((flushPending toks pending).take, rest)
      else parseQuotedLoop f bt toks (pending ++ [c]) rest

/-- `parse_bare_word`. -/
def parse_bare_word (fuel : Nat) (bt : Bool) (index_flag : Bool)
    (s : List Char) : Except PErr (Word × List Char) :=
  match fuel with
  | 0 => .error .fuelOut
  | f + 1 => parseBareLoop f bt index_flag Tokens.new [] s

/-- The token loop of `parse_bare_word`. -/
def parseBareLoop (fuel : Nat) (bt : Bool) (index_flag : Bool)
    (toks : Tokens) (pending : List Char) (s : List Char) :
    Except PErr (Word × List Char) :=
  match fuel with
  | 0 => .error .fuelOut
  | f + 1 =>
    if atEndOfCommand bt s || nextIsLineWhite s then
      .ok ((flushPending toks pending).take, s)
    else
      match s with
      | [] => .ok ((flushPending toks pending).take, [])
      | c :: rest =>
        if index_flag && c = ')' then
          .ok ((flushPending toks pending).take, c :: rest)
        else if c = '[' then
          match parse_brackets f bt (c :: rest) with
          | .error e => .error e
          | .ok (scr, s1) =>
            parseBareLoop f bt index_flag
              ((flushPending toks pending).push (Word.script scr)) [] s1
        else if c = '$' then
          match parse_dollar f bt (flushPending toks pending) (c :: rest) with
          | .error e => .error e
          | .ok (toks1, s1) => parseBareLoop f bt index_flag toks1 [] s1
        else if c = '\\' then
          match bsubstL (c :: rest) with
          | none => .error .panic
          | some (ch, s1) =>
            parseBareLoop f bt index_flag
              ((flushPending toks pending).push_char ch) [] s1
        else parseBareLoop f bt index_flag toks (pending ++ [c]) rest

/-- `parse_brackets`: a nested script in bracket-terminated mode, then the
matching `]`. -/
def parse_brackets (fuel : Nat) (bt : Bool) (s : List Char) :
    Except PErr (List (List Word) × List Char) :=
  match fuel with
  | 0 => .error .fuelOut
  | f + 1 =>
    match s with
    | '[' :: rest =>
      match parse_script f true rest with
      | .error e => .error e
      | .ok (scr, s1) =>
        if nextIs ']' s1 then .ok (scr, s1.tail)
        else .error (.err "missing close-bracket")
    | _ => .error .panic

/-- `parse_dollar`: a variable reference, or the literal `$`. -/
def parse_dollar (fuel : Nat) (bt : Bool) (toks : Tokens) (s : List Char) :
    Except PErr (Tokens × List Char) :=
  match fuel with
  | 0 => .error .fuelOut
  | f + 1 =>
    match s with
    | '$' :: rest =>
      if !(nextIsVarnameChar rest) && !(nextIs '{' rest) then
        .ok (toks.push_char '$', rest)
      else
        match parse_varname f bt rest with
        | .error e => .error e
        | .ok (w, s1) => .ok (toks.push w, s1)
    | _ => .error .panic

/-- `parse_varname` (the `$` has been consumed): braced or plain variable
name, with an optional parenthesised array index. -/
def parse_varname (fuel : Nat) (bt : Bool) (s : List Char) :
    Except PErr (Word × List Char) :=
  match fuel with
  | 0 => .error .fuelOut
  | f + 1 =>
    if nextIs '{' s then
      let rest := s.tail
      let content := rest.takeWhile (· ≠ '}')
      let s1 := rest.dropWhile (· ≠ '}')
      if s1.isEmpty then .error (.err "missing close-brace for variable name")
      else
        let vn := parse_varname_literal content
        match vn.index with
        | some idx => .ok (Word.arrayRef vn.name (Word.str idx), s1.tail)
        | none => .ok (Word.varRef vn.name, s1.tail)
    else
      let name := s.takeWhile isVarnameChar
      let s1 := s.dropWhile isVarnameChar
      if !(nextIs '(' s1) then .ok (Word.varRef ⟨name⟩, s1)
      else
        match parse_bare_word f bt true s1.tail with
        | .error e => .error e
        | .ok (idxw, s2) =>
          if nextIs ')' s2 then .ok (Word.arrayRef ⟨name⟩ idxw, s2.tail)
          else .error .panic

end

/-- `parse`: a whole script, in non-bracket mode. -/
def parse (fuel : Nat) (s : List Char) :
    Except PErr (List (List Word) × List Char) :=
  parse_script fuel false s

/-! ## Specification-side definitions

Definitions written from the words of the spec/claims, to be compared with
the embedded source functions. -/

mutual

/-- Spec side (claims C6/C7): scan for the close brace balancing `count`
open braces, where a backslash escapes the following character (an escaped
brace does not count toward brace balancing).  `some (content, rest)` is
the raw text before the balancing close brace and the input after it;
`none` when the input ends before the unescaped braces balance. -/

def bracedContent : Nat → List Char → Option (List Char × List Char)
  | _, [] => none
  | count, c :: rest =>
    if c = '{' then (bracedContent (count + 1) rest).map fun p => (c :: p.1, p.2)
    else if c = '}' then
      if count - 1 > 0 then
        (bracedContent (count - 1) rest).map fun p => (c :: p.1, p.2)
      else some ([], rest)
    else if c = '\\' then bracedContentEsc count rest
    else (bracedContent count rest).map fun p => (c :: p.1, p.2)

/-- The escape case of the spec-side scan: the escaped character is kept
verbatim behind its backslash and counts toward nothing. -/
def bracedContentEsc : Nat → List Char → Option (List Char × List Char)
  | _, [] => none
  | count, ch :: rest2 =>
    (bracedContent count rest2).map fun p => ('\\' :: ch :: p.1, p.2)

end

mutual

/-- Spec side (claim C6): the only substitution inside braces — each
backslash-newline pair becomes a single space; every other
backslash-escaped character passes through with its backslash. -/

def bracedSubst : List Char → List Char
  | [] => []
  | c :: rest =>
    if c = '\\' then bracedSubstEsc rest
    else c :: bracedSubst rest

/-- The escape case of the substitution: backslash-newline becomes a
space, any other escaped character keeps its backslash; a trailing lone
backslash stays. -/
def bracedSubstEsc : List Char → List Char
  | [] => ['\\']
  | ch :: rest2 => (if ch = '\n' then [' '] else ['\\', ch]) ++ bracedSubst rest2

end

/-- Spec side (claim C5): the listed names "separated by ', ' with ', or '
before the last". -/
def specMustBe (names : List String) : String :=
  match names with
  | [] => ""
  | [a] => a
  | _ => joinSep names.dropLast ++ ", or " ++ names.getLastD ""

/-- Spec side (claim C5): the full claimed miss message. -/
def specSubMsg (names : List String) (sub_name : String) : String :=
  "unknown or ambiguous subcommand \"" ++ sub_name ++ "\": must be "
    ++ specMustBe names

/-- Spec side (claim C4): what `FromStr` makes of a formatted code — the
numbers 0–4 come back as the named codes. -/
def canonRC : ResultCode → ResultCode
  | .other code =>
    if code = 0 then .okay
    else if code = 1 then .error
    else if code = 2 then .ret
    else if code = 3 then .brk
    else if code = 4 then .cont
    else .other code
  | c => c

/-! ## Claim C1 -/

/-- Claim C1 (code bug): the claim says `backslash_subst` "returns
normally the character whose code is the value of those digits read as an
octal number mod 256 (including sequences such as `\777` whose octal value
exceeds 255)".  The code instead feeds the digits to
`u8::from_str_radix(..).map_err(|_| ()).unwrap()`, which panics on any
three-digit octal value above 255: on `\777` the embedded function
produces no value (`none`).  For contrast, `\377` (value 255) does return
normally, consuming all three digits. -/
theorem C1_backslash_octal_777_panics :
    Tokenizer.backslash_subst (Tokenizer.new ['\\', '7', '7', '7']) = none ∧
    Tokenizer.backslash_subst (Tokenizer.new ['\\', '3', '7', '7', '-']) =
      some (Char.ofNat 255, ⟨['\\', '3', '7', '7', '-'], 4, ['-']⟩) := by
  constructor
  · rfl
  · rfl

/-! ## Claim C2 -/

/-- Claim C2 (counterexample): at a backslash followed by a newline,
`backslash_subst` returns the newline itself, not a space, and the quoted
word `"a\<newline>b"` parses to the value `a<newline>b` — no space appears
where the pair was. -/
theorem C2_backslash_newline_counterexample :
    Tokenizer.backslash_subst (Tokenizer.new ['\\', '\n']) =
      some ('\n', ⟨['\\', '\n'], 2, []⟩) ∧
    parse_quoted_word 32 false ['"', 'a', '\\', '\n', 'b', '"'] =
      .ok (Word.value "a\nb", []) ∧
    ¬ ('\n' = ' ') := by
  refine ⟨rfl, rfl, by decide⟩

/-- Claim C2 (amended): in quoted and bare words a backslash immediately
followed by a newline substitutes to the newline character itself (the
"any other character" rule of `backslash_subst`), so the parsed word
contains a newline where the pair was; only braced words turn the pair
into a space. -/
theorem C2_backslash_newline_amended :
    (∀ (inp : List Char) (idx : Nat) (rest : List Char),
      Tokenizer.backslash_subst ⟨inp, idx, '\\' :: '\n' :: rest⟩ =
        some ('\n', ⟨inp, idx + 2, rest⟩)) ∧
    parse_quoted_word 32 false ['"', 'a', '\\', '\n', 'b', '"'] =
      .ok (Word.value "a\nb", []) ∧
    parse_braced_word false ['{', 'a', '\\', '\n', 'b', '}'] =
      .ok (Word.value "a b", []) := by
  refine ⟨fun inp idx rest => rfl, rfl, rfl⟩

/-! ## Claim C3 -/

/-- Claim C3: on an exception whose code is `Return` with positive level,
`decrement_level` decrements the level by exactly one; the code becomes
the carried `next_code` exactly when the new level is zero and stays
`Return` otherwise; value, next_code and error data are unchanged. -/
theorem C3_decrement_level (e : Exception) (hcode : e.code = .ret)
    (hlevel : 0 < e.level) :
    e.decrement_level =
      some { code := if e.level - 1 = 0 then e.next_code else .ret,
             value := e.value, level := e.level - 1,
             next_code := e.next_code, error_data := e.error_data } := by
  rw [Exception.decrement_level, if_pos ⟨hcode, hlevel⟩, hcode]

/-- Claim C3 witness: a `Return` exception at level 2 decrements to level
1 with code still `Return`, everything else unchanged. -/
theorem C3_decrement_level_witness :
    Exception.decrement_level
        ⟨.ret, some "v", 2, .okay, none⟩ =
      some ⟨.ret, some "v", 1, .okay, none⟩ := by
  have h := C3_decrement_level ⟨.ret, some "v", 2, .okay, none⟩ rfl (by decide)
  simpa using h

/-! ## Claim C9 -/

/-- The invariant of claim C9, as the source states it on the `level`
field: "Should be non-zero only for `Return`". -/
def levelInvB (e : Exception) : Bool :=
  e.level == 0 || e.code == ResultCode.ret

/-- The invariant read through the `Option` that models a panicking
constructor: a panic constructs nothing. -/
def optLevelInv : Option Exception → Bool
  | none => true
  | some e => levelInvB e

/-- Claim C9: every public constructor yields an exception whose level is
positive only when its code is `Return`, and `decrement_level` preserves
the invariant (unconditionally: any exception it accepts has code
`Return`, and the result either has level zero or keeps code `Return`). -/
theorem C9_level_invariant :
    (∀ msg, levelInvB (Exception.molt_err msg) = true) ∧
    (∀ ec msg, levelInvB (Exception.molt_err2 ec msg) = true) ∧
    (∀ v, optLevelInv (Exception.molt_return v) = true) ∧
    (∀ v level nc, optLevelInv (Exception.molt_return_ext v level nc) = true) ∧
    (∀ msg level ec ei, levelInvB (Exception.molt_return_err msg level ec ei) = true) ∧
    levelInvB Exception.molt_break = true ∧
    levelInvB Exception.molt_continue = true ∧
    (∀ e : Exception, optLevelInv e.decrement_level = true) := by
  refine ⟨fun msg => rfl, fun ec msg => rfl, fun v => rfl, ?_, ?_, rfl, rfl, ?_⟩
  · intro v level nc
    by_cases h : level > 0 ∨ nc ≠ ResultCode.okay
    · rw [Exception.molt_return_ext, if_pos h]
      by_cases h0 : 0 < level
      · simp [optLevelInv, levelInvB, h0]
      · have h0' : level = 0 := by omega
        subst h0'
        simp [optLevelInv, levelInvB]
    · rw [Exception.molt_return_ext, if_neg h]
      rfl
  · intro msg level ec ei
    by_cases h : level = 0 <;>
      simp [Exception.molt_return_err, levelInvB, h]
  · intro e
    by_cases h : e.code = ResultCode.ret ∧ e.level > 0
    · rw [Exception.decrement_level, if_pos h]
      by_cases h1 : e.level - 1 = 0
      · simp [optLevelInv, levelInvB, h1]
      · simp [optLevelInv, levelInvB, h1, h.1]
    · rw [Exception.decrement_level, if_neg h]
      rfl

/-! ## Claim C5 -/

/-- The `for` loop of `find`: `none` exactly on a miss. -/
theorem findIdx_none_iff (sub : String) (names : List String) :
    findIdx sub names = none ↔ sub ∉ names := by
  induction names with
  | nil => simp [findIdx]
  | cons a rest ih =>
    by_cases h : a = sub
    · subst h
      simp [findIdx]
    · simp [findIdx, h, ih]
      intro hq q
      exact h q.symm

/-- A hit returns the index of an entry equal to the name. -/
theorem findIdx_getD (sub : String) :
    ∀ (names : List String) (i : Nat), findIdx sub names = some i →
      names.getD i "" = sub := by
  intro names
  induction names with
  | nil => intro i h; simp [findIdx] at h
  | cons a rest ih =>
    intro i h
    by_cases ha : a = sub
    · subst ha
      simp [findIdx] at h
      subst h
      rfl
    · simp [findIdx, ha] at h
      obtain ⟨j, hj, rfl⟩ := h
      simpa using ih j hj

theorem joinSep_cons (a : String) (m : List String) (hm : m ≠ []) :
    joinSep (a :: m) = a ++ ", " ++ joinSep m := by
  cases m with
  | nil => contradiction
  | cons b r => rfl

/-- Tables of three or more entries produce exactly the claimed message. -/
theorem findMsg_ge3 (a b c : String) (rest : List String) (sub : String) :
    Subcommand.findMsg (a :: b :: c :: rest) sub =
      specSubMsg (a :: b :: c :: rest) sub := by
  have h1 : (a :: b :: c :: rest).length > 1 := by simp
  have h2 : (a :: b :: c :: rest).length > 2 := by simp
  simp only [Subcommand.findMsg]
  rw [if_pos h1, if_pos h2, if_pos h1]
  have hdrop : (a :: b :: c :: rest).drop 1 = b :: c :: rest := rfl
  have hlast : (a :: b :: c :: rest).length - 1 - 1 = (b :: c :: rest).length - 1 := by
    simp
  rw [hdrop, hlast, ← List.dropLast_eq_take]
  have htail : (b :: c :: rest) ≠ [] := by simp
  have hdlne : (b :: c :: rest).dropLast ≠ [] := by
    cases rest <;> simp
  simp only [specSubMsg, specMustBe]
  rw [List.dropLast_cons_of_ne_nil htail, joinSep_cons a _ hdlne]
  have hgl : (a :: b :: c :: rest).getLastD "" = (b :: c :: rest).getLastD "" := by
    cases rest <;> simp [List.getLastD]
  apply String.ext
  simp [hgl]

/-- Claim C5 (amended): on a non-empty table, `Subcommand::find` returns
`Ok` with an entry exactly when some entry's name equals the given name
character-for-character (no prefix matching); on a miss it fails with the
built message, which has the claimed `A, B, ..., or Z` shape for tables of
any size other than two, while a two-entry table yields `A, , or B` — the
claimed shape with a spurious empty name inserted. -/
theorem C5_subcommand_find (names : List String) (sub : String)
    (hne : names ≠ []) :
    ((∃ i, Subcommand.find names sub = some (.ok i) ∧
        names.getD i "" = sub) ↔ sub ∈ names) ∧
    (sub ∉ names →
      Subcommand.find names sub =
        some (.error (Subcommand.findMsg names sub)) ∧
      (names.length ≠ 2 → Subcommand.findMsg names sub = specSubMsg names sub) ∧
      (∀ a b, names = [a, b] →
        Subcommand.findMsg names sub = specSubMsg [a, "", b] sub)) := by
  constructor
  · constructor
    · rintro ⟨i, hfind, hget⟩
      by_contra hmem
      have hnone : findIdx sub names = none := (findIdx_none_iff sub names).mpr hmem
      rw [Subcommand.find.eq_def, hnone] at hfind
      cases names with
      | nil => exact hne rfl
      | cons a rest => simp at hfind
    · intro hmem
      obtain ⟨i, hi⟩ : ∃ i, findIdx sub names = some i := by
        rcases h : findIdx sub names with _ | i
        · exact absurd ((findIdx_none_iff sub names).mp h) (by simpa using hmem)
        · exact ⟨i, rfl⟩
      refine ⟨i, ?_, findIdx_getD sub names i hi⟩
      rw [Subcommand.find.eq_def, hi]
  · intro hmem
    have hnone : findIdx sub names = none := (findIdx_none_iff sub names).mpr hmem
    refine ⟨?_, ?_, ?_⟩
    · rw [Subcommand.find.eq_def, hnone]
      cases names with
      | nil => exact absurd rfl hne
      | cons a rest => rfl
    · intro hlen
      match names, hne with
      | [a], _ =>
        apply String.ext
        simp [Subcommand.findMsg, specSubMsg, specMustBe]
      | [a, b], _ => exact absurd rfl hlen
      | a :: b :: c :: rest, _ => exact findMsg_ge3 a b c rest sub
    · rintro a b rfl
      apply String.ext
      simp [Subcommand.findMsg, specSubMsg, specMustBe, joinSep]

/-- Claim C5 witness: on the table `[set, get, put]` the name `get` is
found at index 1, and the miss `zap` produces exactly the claimed
message. -/
theorem C5_subcommand_find_witness :
    Subcommand.find ["set", "get", "put"] "get" = some (.ok 1) ∧
    Subcommand.find ["set", "get", "put"] "zap" =
      some (.error
        "unknown or ambiguous subcommand \"zap\": must be set, get, or put") := by
  have h := C5_subcommand_find ["set", "get", "put"] "zap" (by decide)
  have hmem : "zap" ∉ ["set", "get", "put"] := by decide
  obtain ⟨hfail, hshape, -⟩ := h.2 hmem
  refine ⟨rfl, ?_⟩
  rw [hfail, hshape (by decide)]
  rfl

/-- Claim C5 (counterexample): on the two-entry table `[foo, bar]` the
miss message contains `foo, , or bar`, not the claimed `foo, or bar`. -/
theorem C5_two_entry_counterexample :
    Subcommand.find ["foo", "bar"] "baz" =
      some (.error
        "unknown or ambiguous subcommand \"baz\": must be foo, , or bar") ∧
    specSubMsg ["foo", "bar"] "baz" =
      "unknown or ambiguous subcommand \"baz\": must be foo, or bar" ∧
    Subcommand.findMsg ["foo", "bar"] "baz" ≠ specSubMsg ["foo", "bar"] "baz" := by
  refine ⟨rfl, rfl, by decide⟩

/-! ## Claim C4 -/

theorem isDecDigit_toNat {c : Char} (h : isDecDigit c = true) :
    48 ≤ c.toNat ∧ c.toNat ≤ 57 := by
  simp [isDecDigit, Char.le_def] at h
  exact h

theorem digitChar_spec (k : Nat) (hk : k < 10) :
    isDecDigit (Char.ofNat (48 + k)) = true ∧
    digitVal (Char.ofNat (48 + k)) = k := by
  interval_cases k <;> exact ⟨by decide, by decide⟩

theorem natDecDigits_zero : natDecDigits 0 = ['0'] := by
  rw [natDecDigits]
  norm_num

theorem radixVal_append (r : Nat) (a b : List Char) (acc : Nat) :
    radixVal r (a ++ b) acc = radixVal r b (radixVal r a acc) := by
  induction a generalizing acc with
  | nil => rfl
  | cons c rest ih => simp [radixVal, ih]

/-- The decimal digits of `n` are nonempty decimal digits whose value,
read back in radix 10, is `n` again. -/
theorem natDecDigits_spec (n : Nat) :
    natDecDigits n ≠ [] ∧ (natDecDigits n).all isDecDigit = true ∧
    ∀ acc, radixVal 10 (natDecDigits n) acc =
      acc * 10 ^ (natDecDigits n).length + n := by
  induction n using Nat.strong_induction_on with
  | _ n ih =>
    by_cases h : n < 10
    · rw [natDecDigits]
      simp only [dif_pos h]
      obtain ⟨hd, hv⟩ := digitChar_spec n h
      refine ⟨by simp, by simp [hd], ?_⟩
      intro acc
      simp [radixVal, hv]
    · rw [natDecDigits]
      simp only [dif_neg h]
      have hlt : n / 10 < n := Nat.div_lt_self (by omega) (by omega)
      obtain ⟨ihne, ihall, ihval⟩ := ih (n / 10) hlt
      obtain ⟨hd, hv⟩ := digitChar_spec (n % 10) (Nat.mod_lt n (by omega))
      refine ⟨by simp, ?_, ?_⟩
      · simp [List.all_append, ihall, hd]
      · intro acc
        rw [radixVal_append]
        simp only [radixVal, ihval acc]
        rw [hv]
        have : n / 10 * 10 + n % 10 = n := by omega
        simp [List.length_append, pow_succ]
        ring_nf
        omega

theorem dec_ne {c d : Char} (h : isDecDigit c = true)
    (hd : d.toNat < 48 ∨ 57 < d.toNat) : c ≠ d := by
  obtain ⟨h1, h2⟩ := isDecDigit_toNat h
  intro heq
  subst heq
  omega

theorem isDecDigit_digitVal_lt {c : Char} (h : isDecDigit c = true) :
    digitVal c < 10 := by
  obtain ⟨h1, h2⟩ := isDecDigit_toNat h
  have h48 : '0'.toNat = 48 := rfl
  have : digitVal c = c.toNat - '0'.toNat := by
    rw [digitVal, if_pos]
    simpa [isDecDigit] using h
  rw [this, h48]
  omega

/-- An all-decimal digit sequence starts with neither a sign nor a radix
prefix, so `get_int` reads it back in radix ten. -/
theorem stripSign_dec (d : Char) (tail : List Char) (hd : isDecDigit d = true) :
    stripSign (d :: tail) = (false, d :: tail) := by
  rw [stripSign, if_neg, if_neg] <;>
    simp [List.take] <;>
    exact dec_ne hd (by decide)

theorem stripRadix_dec (ds : List Char) (hall : ds.all isDecDigit = true) :
    stripRadix ds = (10, ds) := by
  have htake2 : ∀ (z : Char), isDecDigit z = false → ds.take 2 ≠ ['0', z] := by
    intro z hz heq
    match ds, hall with
    | d :: e :: r, hall =>
      have hde : [d, e] = ['0', z] := heq
      simp only [List.cons.injEq, and_true] at hde
      simp only [List.all_cons, Bool.and_eq_true] at hall
      rw [← hde.2, hall.2.1] at hz
      simp at hz
  rw [stripRadix, if_neg, if_neg, if_neg]
  · exact htake2 'b' (by decide)
  · exact htake2 'o' (by decide)
  · rintro (h | h)
    · exact htake2 'x' (by decide) h
    · exact htake2 'X' (by decide) h

theorem get_int_intRepr (n : Int) : get_int (intRepr n) = .ok n := by
  obtain ⟨hne, hall, hval⟩ := natDecDigits_spec n.natAbs
  set ds := natDecDigits n.natAbs with hds
  obtain ⟨d, tail, hcons⟩ : ∃ d tail, ds = d :: tail := by
    cases h : ds with
    | nil => exact absurd h hne
    | cons a b => exact ⟨a, b, rfl⟩
  have hd : isDecDigit d = true := by
    rw [hcons] at hall
    simp only [List.all_cons, Bool.and_eq_true] at hall
    exact hall.1
  have hall10 : ds.all (isRadixDigit 10) = true := by
    rw [List.all_eq_true] at hall ⊢
    intro c hc
    have hcd := hall c hc
    simp [isRadixDigit, isDecDigit_digitVal_lt hcd, hcd]
  have hvalue : radixVal 10 ds 0 = n.natAbs := by
    have := hval 0
    simpa using this
  have hstrip : stripSign ds = (false, ds) := by
    rw [hcons]
    exact stripSign_dec d tail hd
  have hradix : stripRadix ds = (10, ds) := stripRadix_dec ds hall
  by_cases hn : n < 0
  · have hrepr : intRepr n = "-" ++ String.mk ds := by
      rw [intRepr, if_pos hn, hds]
    have hsign : stripSign ('-' :: ds) = (true, ds) := by
      rw [stripSign, if_pos] <;> simp [List.take]
    rw [hrepr]
    show get_int ⟨'-' :: ds⟩ = .ok n
    rw [get_int]
    simp only [hsign, hradix]
    rw [if_pos ⟨hne, hall10⟩]
    simp only [hvalue, Int.ofNat_eq_natCast]
    norm_num
    rw [abs_of_neg hn]
    omega
  · have hrepr : intRepr n = String.mk ds := by
      rw [intRepr, if_neg hn, hds]
    rw [hrepr]
    show get_int ⟨ds⟩ = .ok n
    rw [get_int]
    simp only [hstrip, hradix]
    rw [if_pos ⟨hne, hall10⟩]
    simp only [hvalue]
    rw [if_neg (by simp)]
    congr 1
    simp only [Int.ofNat_eq_natCast]
    omega

theorem intRepr_ne_kw (n : Int) (w : String) (c : Char) (rest : List Char)
    (hw : w.data = c :: rest) (hc : isDecDigit c = false) (hcm : c ≠ '-') :
    intRepr n ≠ w := by
  obtain ⟨hne, hall, -⟩ := natDecDigits_spec n.natAbs
  intro heq
  have hdata : (intRepr n).data = w.data := by rw [heq]
  rw [hw] at hdata
  by_cases hn : n < 0
  · rw [intRepr, if_pos hn] at hdata
    have : '-' = c := by
      have : ('-' :: (String.mk (natDecDigits n.natAbs)).data : List Char) = c :: rest := hdata
      exact (List.cons.injEq .. ▸ this).1
    exact hcm this.symm
  · rw [intRepr, if_neg hn] at hdata
    match hds : natDecDigits n.natAbs, hall with
    | [], _ => exact absurd hds hne
    | d :: tail, hall =>
      have hd : isDecDigit d = true := by
        simp only [List.all_cons, Bool.and_eq_true] at hall
        exact hall.1
      have hdc : d = c := by
        rw [hds] at hdata
        exact (List.cons.injEq .. ▸ hdata).1
      rw [hdc, hc] at hd
      simp at hd

/-- Claim C4 (amended): formatting-then-parsing is the identity on the
five named codes and on `Other(n)` for `n` outside 0..4; `Other(n)` with
`n` in 0..4 parses back to the named code with the same integer value
(`canonRC`); and `as_int` maps Okay,Error,Return,Break,Continue to 0..4
and `Other(n)` to `n`. -/
theorem C4_result_code_round_trip :
    (∀ c : ResultCode, ResultCode.from_str c.display = .ok (canonRC c)) ∧
    (∀ c : ResultCode, (canonRC c).as_int = c.as_int) ∧
    ResultCode.okay.as_int = 0 ∧ ResultCode.error.as_int = 1 ∧
    ResultCode.ret.as_int = 2 ∧ ResultCode.brk.as_int = 3 ∧
    ResultCode.cont.as_int = 4 ∧ ∀ n : Int, (ResultCode.other n).as_int = n := by
  refine ⟨?_, ?_, rfl, rfl, rfl, rfl, rfl, fun n => rfl⟩
  · intro c
    cases c with
    | okay => rfl
    | error => rfl
    | ret => rfl
    | brk => rfl
    | cont => rfl
    | other n =>
      show ResultCode.from_str (intRepr n) = _
      rw [ResultCode.from_str]
      rw [if_neg (intRepr_ne_kw n "ok" 'o' _ rfl (by decide) (by decide))]
      rw [if_neg (intRepr_ne_kw n "error" 'e' _ rfl (by decide) (by decide))]
      rw [if_neg (intRepr_ne_kw n "return" 'r' _ rfl (by decide) (by decide))]
      rw [if_neg (intRepr_ne_kw n "break" 'b' _ rfl (by decide) (by decide))]
      rw [if_neg (intRepr_ne_kw n "continue" 'c' _ rfl (by decide) (by decide))]
      simp only [get_int_intRepr]
      simp only [canonRC]
      split_ifs <;> rfl
  · intro c
    cases c with
    | other n =>
      simp only [canonRC]
      split_ifs <;> simp_all [ResultCode.as_int]
    | okay => rfl
    | error => rfl
    | ret => rfl
    | brk => rfl
    | cont => rfl

/-- Claim C4 (counterexample): `Other(0)` formats to `"0"`, which parses
back to `Okay`, not to `Other(0)`. -/
theorem C4_other_zero_counterexample :
    (ResultCode.other 0).display = "0" ∧
    ResultCode.from_str "0" = .ok ResultCode.okay ∧
    ResultCode.other 0 ≠ ResultCode.okay := by
  refine ⟨?_, rfl, by decide⟩
  show intRepr 0 = "0"
  rw [intRepr, if_neg (by omega)]
  rw [show ((0 : Int).natAbs) = 0 from rfl, natDecDigits_zero]

/-! ## Claim C8 -/

/-- Claim C8: a word beginning with the literal `{*}` parses to the
literal value `*` when the operator is followed by end of input or
whitespace; otherwise `parse_next_word` parses the immediately following
word and wraps it in `Expand` (errors propagate unchanged).  Stated for
every fuel, bracket mode, and following input. -/
theorem C8_expansion_operator (f : Nat) (bt : Bool) (s : List Char) :
    parse_next_word (f + 1) bt ('{' :: '*' :: '}' :: s) =
      if s.isEmpty || nextIsBlockWhite s then .ok (Word.value "*", s)
      else (parse_next_word f bt s).map fun p => (Word.expand p.1, p.2) := by
  rw [parse_next_word]
  rw [if_pos (show nextIs '{' ('{' :: '*' :: '}' :: s) = true from rfl)]
  rw [if_pos (show ('{' :: '*' :: '}' :: s).take 3 = ['{', '*', '}'] from rfl)]
  show (if ((('{' :: '*' :: '}' :: s).drop 3).isEmpty
          || nextIsBlockWhite (('{' :: '*' :: '}' :: s).drop 3)) = true then _ else _) = _
  have hdrop : ('{' :: '*' :: '}' :: s).drop 3 = s := rfl
  rw [hdrop]
  by_cases h : (s.isEmpty || nextIsBlockWhite s) = true
  · rw [if_pos h, if_pos h]
  · rw [if_neg h, if_neg h]
    cases parse_next_word f bt s with
    | error e => rfl
    | ok p => rfl

/-- The result the spec's description assigns to the braced-word loop:
the balancing scan drives success, the missing-close-brace error, and the
extra-characters check. -/
def bracedRhs (bt : Bool) (count : Nat) (text : List Char) (s : List Char) :
    Except PErr (Word × List Char) :=
  match bracedContent count s with
  | none => .error (.err "missing close-brace")
  | some (content, r) =>
    if atEndOfCommand bt r || nextIsLineWhite r then
      .ok (Word.value ⟨text ++ bracedSubst content⟩, r)
    else .error (.err "extra characters after close-brace")

/-- `bracedRhs` for the escape continuation. -/
def bracedEscRhs (bt : Bool) (count : Nat) (text : List Char) (s : List Char) :
    Except PErr (Word × List Char) :=
  match bracedContentEsc count s with
  | none => .error (.err "missing close-brace")
  | some (content, r) =>
    if atEndOfCommand bt r || nextIsLineWhite r then
      .ok (Word.value ⟨text ++ bracedSubst content⟩, r)
    else .error (.err "extra characters after close-brace")

theorem bracedRhs_none (bt : Bool) (count : Nat) (text : List Char)
    (s : List Char) (h : bracedContent count s = none) :
    bracedRhs bt count text s = .error (.err "missing close-brace") := by
  rw [bracedRhs, h]

theorem bracedRhs_some (bt : Bool) (count : Nat) (text : List Char)
    (s : List Char) (content r : List Char)
    (h : bracedContent count s = some (content, r)) :
    bracedRhs bt count text s =
      if atEndOfCommand bt r || nextIsLineWhite r then
        .ok (Word.value ⟨text ++ bracedSubst content⟩, r)
      else .error (.err "extra characters after close-brace") := by
  rw [bracedRhs, h]

theorem bracedEscRhs_none (bt : Bool) (count : Nat) (text : List Char)
    (s : List Char) (h : bracedContentEsc count s = none) :
    bracedEscRhs bt count text s = .error (.err "missing close-brace") := by
  rw [bracedEscRhs, h]

theorem bracedEscRhs_some (bt : Bool) (count : Nat) (text : List Char)
    (s : List Char) (content r : List Char)
    (h : bracedContentEsc count s = some (content, r)) :
    bracedEscRhs bt count text s =
      if atEndOfCommand bt r || nextIsLineWhite r then
        .ok (Word.value ⟨text ++ bracedSubst content⟩, r)
      else .error (.err "extra characters after close-brace") := by
  rw [bracedEscRhs, h]

theorem bracedSubst_cons_other (c : Char) (rest : List Char) (h : c ≠ '\\') :
    bracedSubst (c :: rest) = c :: bracedSubst rest := by
  rw [bracedSubst, if_neg h]

/-- The braced-word loop agrees with the spec-side balancing scan. -/
theorem parseBraced_spec (bt : Bool) :
    ∀ (n : Nat),
      (∀ (s : List Char), s.length ≤ n → ∀ (count : Nat) (text : List Char),
        1 ≤ count → parseBracedLoop bt count text s = bracedRhs bt count text s) ∧
      (∀ (s : List Char), s.length ≤ n → ∀ (count : Nat) (text : List Char),
        1 ≤ count → parseBracedEsc bt count text s = bracedEscRhs bt count text s) := by
  intro n
  induction n with
  | zero =>
    refine ⟨?_, ?_⟩ <;>
      · intro s hs count text hc
        have : s = [] := List.length_eq_zero.mp (by omega)
        subst this
        rfl
  | succ n ih =>
    constructor
    · intro s hs count text hc
      match s with
      | [] => rfl
      | c :: rest =>
        have hrest : rest.length ≤ n := by
          simp at hs
          omega
        rw [parseBracedLoop]
        by_cases h1 : c = '{'
        · subst h1
          rw [if_pos rfl]
          rw [ih.1 rest hrest (count + 1) (text ++ ['{']) (by omega)]
          cases hbc : bracedContent (count + 1) rest with
          | none =>
            rw [bracedRhs_none bt (count + 1) (text ++ ['{']) rest hbc]
            rw [bracedRhs_none bt count text ('{' :: rest)
              (by rw [bracedContent, if_pos rfl, hbc]; rfl)]
          | some p =>
            obtain ⟨content, r⟩ := p
            rw [bracedRhs_some bt (count + 1) (text ++ ['{']) rest content r hbc]
            rw [bracedRhs_some bt count text ('{' :: rest) ('{' :: content) r
              (by rw [bracedContent, if_pos rfl, hbc]; rfl)]
            rw [bracedSubst_cons_other '{' content (by decide)]
            have : text ++ ['{'] ++ bracedSubst content =
                text ++ '{' :: bracedSubst content := by simp
            rw [this]
        · rw [if_neg h1]
          by_cases h2 : c = '}'
          · subst h2
            rw [if_pos rfl]
            by_cases h3 : count - 1 > 0
            · rw [if_pos h3]
              rw [ih.1 rest hrest (count - 1) (text ++ ['}']) (by omega)]
              cases hbc : bracedContent (count - 1) rest with
              | none =>
                rw [bracedRhs_none bt (count - 1) (text ++ ['}']) rest hbc]
                rw [bracedRhs_none bt count text ('}' :: rest)
                  (by rw [bracedContent, if_neg (by decide), if_pos rfl,
                          if_pos h3, hbc]; rfl)]
              | some p =>
                obtain ⟨content, r⟩ := p
                rw [bracedRhs_some bt (count - 1) (text ++ ['}']) rest content r hbc]
                rw [bracedRhs_some bt count text ('}' :: rest) ('}' :: content) r
                  (by rw [bracedContent, if_neg (by decide), if_pos rfl,
                          if_pos h3, hbc]; rfl)]
                rw [bracedSubst_cons_other '}' content (by decide)]
                have : text ++ ['}'] ++ bracedSubst content =
                    text ++ '}' :: bracedSubst content := by simp
                rw [this]
            · rw [if_neg h3]
              rw [bracedRhs_some bt count text ('}' :: rest) [] rest
                (by rw [bracedContent, if_neg (by decide), if_pos rfl, if_neg h3])]
              rw [show bracedSubst [] = [] from rfl]
              rw [show text ++ ([] : List Char) = text by simp]
          · rw [if_neg h2]
            by_cases h5 : c = '\\'
            · subst h5
              rw [if_pos rfl]
              rw [ih.2 rest hrest count text hc]
              cases hbc : bracedContentEsc count rest with
              | none =>
                rw [bracedEscRhs_none bt count text rest hbc]
                rw [bracedRhs_none bt count text ('\\' :: rest)
                  (by rw [bracedContent, if_neg (by decide), if_neg (by decide),
                          if_pos rfl, hbc])]
              | some p =>
                obtain ⟨content, r⟩ := p
                rw [bracedEscRhs_some bt count text rest content r hbc]
                rw [bracedRhs_some bt count text ('\\' :: rest) content r
                  (by rw [bracedContent, if_neg (by decide), if_neg (by decide),
                          if_pos rfl, hbc])]
            · rw [if_neg h5]
              rw [ih.1 rest hrest count (text ++ [c]) hc]
              cases hbc : bracedContent count rest with
              | none =>
                rw [bracedRhs_none bt count (text ++ [c]) rest hbc]
                rw [bracedRhs_none bt count text (c :: rest)
                  (by rw [bracedContent, if_neg h1, if_neg h2, if_neg h5, hbc]; rfl)]
              | some p =>
                obtain ⟨content, r⟩ := p
                rw [bracedRhs_some bt count (text ++ [c]) rest content r hbc]
                rw [bracedRhs_some bt count text (c :: rest) (c :: content) r
                  (by rw [bracedContent, if_neg h1, if_neg h2, if_neg h5, hbc]; rfl)]
                rw [bracedSubst_cons_other c content h5]
                have : text ++ [c] ++ bracedSubst content =
                    text ++ c :: bracedSubst content := by simp
                rw [this]
    · intro s hs count text hc
      match s with
      | [] => rfl
      | ch :: rest2 =>
        have hrest2 : rest2.length ≤ n := by
          simp at hs
          omega
        rw [parseBracedEsc]
        rw [ih.1 rest2 hrest2 count
          (text ++ if ch = '\n' then [' '] else ['\\', ch]) hc]
        cases hbc : bracedContent count rest2 with
        | none =>
          rw [bracedRhs_none bt count _ rest2 hbc]
          rw [bracedEscRhs_none bt count text (ch :: rest2)
            (by rw [bracedContentEsc, hbc]; rfl)]
        | some p =>
          obtain ⟨content, r⟩ := p
          rw [bracedRhs_some bt count _ rest2 content r hbc]
          rw [bracedEscRhs_some bt count text (ch :: rest2) ('\\' :: ch :: content) r
            (by rw [bracedContentEsc, hbc]; rfl)]
          rw [show bracedSubst ('\\' :: ch :: content) = bracedSubstEsc (ch :: content)
            from by rw [bracedSubst, if_pos rfl]]
          rw [show bracedSubstEsc (ch :: content) =
              (if ch = '\n' then [' '] else ['\\', ch]) ++ bracedSubst content
            from by rw [bracedSubstEsc]]
          have : text ++ (if ch = '\n' then [' '] else ['\\', ch]) ++ bracedSubst content =
              text ++ ((if ch = '\n' then [' '] else ['\\', ch]) ++ bracedSubst content) := by
            simp
          rw [this]

/-- `parse_braced_word` is the loop started at one unmatched brace. -/
theorem parse_braced_word_spec (bt : Bool) (s : List Char) :
    parse_braced_word bt ('{' :: s) = bracedRhs bt 1 [] s := by
  show parseBracedLoop bt 1 [] s = _
  exact (parseBraced_spec bt s.length).1 s le_rfl 1 [] le_rfl

/-! ## Claim C6 -/

/-- Claim C6: a braced word that parses successfully is a single literal
`Value` equal to the text between the outermost braces (`bracedContent`,
in which a backslash escapes the following character, so an escaped brace
does not count toward balancing) transformed only by `bracedSubst`: each
backslash-newline pair becomes one space and every other
backslash-escaped character passes through with its backslash. -/
theorem C6_braced_word_literal (bt : Bool) (s : List Char) (w : Word)
    (r : List Char) (h : parse_braced_word bt ('{' :: s) = .ok (w, r)) :
    ∃ content, bracedContent 1 s = some (content, r) ∧
      w = Word.value ⟨bracedSubst content⟩ := by
  rw [parse_braced_word_spec] at h
  cases hbc : bracedContent 1 s with
  | none =>
    rw [bracedRhs_none _ _ _ _ hbc] at h
    exact absurd h (by simp)
  | some p =>
    obtain ⟨content, r'⟩ := p
    rw [bracedRhs_some _ _ _ _ _ _ hbc] at h
    by_cases hok : (atEndOfCommand bt r' || nextIsLineWhite r') = true
    · rw [if_pos hok] at h
      simp only [Except.ok.injEq, Prod.mk.injEq] at h
      obtain ⟨hw, hr⟩ := h
      subst hr
      refine ⟨content, rfl, ?_⟩
      rw [← hw]
      simp
    · rw [if_neg hok] at h
      exact absurd h (by simp)

/-- Claim C6 witness: `{a\{b} ` parses to the literal `a\{b` — the
escaped brace kept its backslash and did not count toward balancing. -/
theorem C6_braced_word_literal_witness :
    ∃ content, bracedContent 1 ['a', '\\', '{', 'b', '}', ' '] =
        some (content, [' ']) ∧
      Word.value "a\\\x7bb" = Word.value ⟨bracedSubst content⟩ :=
  C6_braced_word_literal false ['a', '\\', '{', 'b', '}', ' ']
    (Word.value "a\\\x7bb") [' '] rfl

/-! ## Claim C7 -/

/-- Claim C7: a braced-word parse fails with exactly `missing close-brace`
iff the input ends before the unescaped braces balance
(`bracedContent 1 s = none`); it fails with exactly `extra characters
after close-brace` iff the balancing close brace is followed by a
character that is neither horizontal whitespace nor a command terminator;
and it succeeds whenever the unescaped braces balance with the close brace
followed by whitespace or a terminator. -/
theorem C7_braced_word_errors (bt : Bool) (s : List Char) :
    (parse_braced_word bt ('{' :: s) = .error (.err "missing close-brace") ↔
      bracedContent 1 s = none) ∧
    (parse_braced_word bt ('{' :: s) =
        .error (.err "extra characters after close-brace") ↔
      ∃ content r, bracedContent 1 s = some (content, r) ∧
        (atEndOfCommand bt r || nextIsLineWhite r) = false) ∧
    (∀ content r, bracedContent 1 s = some (content, r) →
      (atEndOfCommand bt r || nextIsLineWhite r) = true →
      parse_braced_word bt ('{' :: s) =
        .ok (Word.value ⟨bracedSubst content⟩, r)) := by
  rw [parse_braced_word_spec]
  cases hbc : bracedContent 1 s with
  | none =>
    rw [bracedRhs_none _ _ _ _ hbc]
    refine ⟨by simp, ?_, ?_⟩
    · constructor
      · intro h
        exact absurd h (by simp)
      · rintro ⟨content, r, heq, -⟩
        exact absurd heq (by simp)
    · intro content r heq
      exact absurd heq (by simp)
  | some p =>
    obtain ⟨content, r⟩ := p
    rw [bracedRhs_some _ _ _ _ _ _ hbc]
    by_cases hok : (atEndOfCommand bt r || nextIsLineWhite r) = true
    · rw [if_pos hok]
      refine ⟨by simp, ?_, ?_⟩
      · constructor
        · intro h
          exact absurd h (by simp)
        · rintro ⟨content', r', heq, hbad⟩
          simp only [Option.some.injEq, Prod.mk.injEq] at heq
          obtain ⟨-, hr⟩ := heq
          subst hr
          rw [hok] at hbad
          exact absurd hbad (by simp)
      · intro content' r' heq hok'
        simp only [Option.some.injEq, Prod.mk.injEq] at heq
        obtain ⟨hcnt, hr⟩ := heq
        subst hcnt
        subst hr
        simp
    · rw [if_neg hok]
      refine ⟨by simp, ?_, ?_⟩
      · constructor
        · intro h
          exact ⟨content, r, rfl, by simpa using hok⟩
        · intro h
          rfl
      · intro content' r' heq hok'
        simp only [Option.some.injEq, Prod.mk.injEq] at heq
        obtain ⟨hcnt, hr⟩ := heq
        subst hcnt
        subst hr
        exact absurd hok' hok

/-! ## Claim C10 -/

/-- A byte index that lies on a UTF-8 character boundary of `inp` (and
hence is at most its byte length). -/
def IsBoundary (inp : List Char) (i : Nat) : Prop :=
  ∃ pre suf, inp = pre ++ suf ∧ i = utf8Len pre

/-- The tokenizer-state invariant: the input is `inp`, the remaining
characters are a suffix of it, and the byte index is exactly the byte
length of the consumed part. -/
def Valid (inp : List Char) (t : Tokenizer) : Prop :=
  t.input = inp ∧ ∃ pre, inp = pre ++ t.chars ∧ t.index = utf8Len pre

/-- The states reachable from `Tokenizer::new` by the mutating operations
of the claim: `next`/`skip`, `skip_while`, `skip_over`,
`backslash_subst`, and `reset_to` at a mark previously returned by
`mark()` (i.e. the index of some reachable state of the same run). -/
inductive Reach (inp : List Char) : Tokenizer → Prop where
  | base : Reach inp (Tokenizer.new inp)
  | stepNext (t : Tokenizer) : Reach inp t → Reach inp t.next.2
  | stepSkipWhile (p : Char → Bool) (t : Tokenizer) :
      Reach inp t → Reach inp (Tokenizer.skip_while p t)
  | stepSkipOver (t : Tokenizer) (n : Nat) :
      Reach inp t → Reach inp (t.skip_over n)
  | stepBsubst (t t' : Tokenizer) (c : Char) :
      Reach inp t → t.backslash_subst = some (c, t') → Reach inp t'
  | stepReset (t tm t' : Tokenizer) :
      Reach inp t → Reach inp tm → t.reset_to tm.index = some t' →
      Reach inp t'

theorem utf8Len_eq_zero {m : List Char} (h : utf8Len m = 0) : m = [] := by
  cases m with
  | nil => rfl
  | cons c r =>
    exfalso
    have := utf8Size_pos c
    simp [utf8Len] at h
    omega

theorem utf8Len_snoc (pre : List Char) (c : Char) :
    utf8Len (pre ++ [c]) = utf8Len pre + c.utf8Size := by
  simp [utf8Len_append, utf8Len]

/-- A `take` of a `takeWhile` is a prefix: the list splits around it. -/
theorem takeWhile_take_append (p : Char → Bool) :
    ∀ (l : List Char) (k : Nat),
      ((l.takeWhile p).take k) ++ l.drop ((l.takeWhile p).take k).length = l := by
  intro l
  induction l with
  | nil => intro k; simp
  | cons c r ih =>
    intro k
    by_cases hp : p c
    · rw [List.takeWhile_cons_of_pos hp]
      cases k with
      | zero => simp
      | succ k =>
        rw [List.take_succ_cons]
        simp only [List.length_cons, List.drop_succ_cons, List.cons_append,
          List.cons.injEq, true_and]
        exact ih k
    · rw [List.takeWhile_cons_of_neg hp]
      simp

theorem valid_mk (inp pre suf : List Char) (h : inp = pre ++ suf) :
    Valid inp ⟨inp, utf8Len pre, suf⟩ :=
  ⟨rfl, pre, h, rfl⟩

theorem valid_next (inp : List Char) (t : Tokenizer) (hv : Valid inp t) :
    Valid inp t.next.2 := by
  obtain ⟨ti, ix, cs⟩ := t
  obtain ⟨hti, pre, hpre, hidx⟩ := hv
  simp only at hti hidx
  cases cs with
  | nil => exact ⟨hti, pre, hpre, hidx⟩
  | cons c rest =>
    refine ⟨hti, pre ++ [c], ?_, ?_⟩
    · show inp = (pre ++ [c]) ++ rest
      simpa using hpre
    · show ix + c.utf8Size = utf8Len (pre ++ [c])
      rw [utf8Len_snoc, hidx]

theorem valid_skip_while (inp : List Char) (p : Char → Bool) :
    ∀ (cs : List Char) (ti : List Char) (ix : Nat),
      Valid inp ⟨ti, ix, cs⟩ → Valid inp (Tokenizer.skip_while p ⟨ti, ix, cs⟩) := by
  intro cs
  induction cs with
  | nil =>
    intro ti ix hv
    rw [Tokenizer.skip_while]
    exact hv
  | cons c rest ih =>
    intro ti ix hv
    rw [Tokenizer.skip_while]
    by_cases hp : p c
    · rw [if_pos hp]
      obtain ⟨hti, pre, hpre, hidx⟩ := hv
      simp only at hti hidx
      refine ih ti (ix + c.utf8Size) ⟨hti, pre ++ [c], ?_, ?_⟩
      · show inp = (pre ++ [c]) ++ rest
        simpa using hpre
      · show ix + c.utf8Size = utf8Len (pre ++ [c])
        rw [utf8Len_snoc, hidx]
    · rw [if_neg hp]
      exact hv

theorem valid_skip_over (inp : List Char) :
    ∀ (n : Nat) (t : Tokenizer), Valid inp t → Valid inp (t.skip_over n) := by
  intro n
  induction n with
  | zero => intro t hv; exact hv
  | succ n ih =>
    intro t hv
    rw [Tokenizer.skip_over]
    exact ih t.skip (valid_next inp t hv)

theorem valid_reset (inp : List Char) (t tm t' : Tokenizer)
    (hv : Valid inp t) (hvm : Valid inp tm)
    (h : t.reset_to tm.index = some t') : Valid inp t' := by
  obtain ⟨hti, -, -, -⟩ := hv
  obtain ⟨htim, prem, hprem, hidxm⟩ := hvm
  rw [Tokenizer.reset_to, hti, hidxm] at h
  rw [hprem, dropBytes_exact] at h
  simp only [Option.map_some', Option.some.injEq] at h
  subst h
  exact ⟨hprem.symm, prem, hprem, rfl⟩

theorem valid_bsubstAfter (inp : List Char) (pre : List Char) :
    ∀ (rest0 : List Char) (c' : Char) (t' : Tokenizer),
      inp = pre ++ rest0 →
      bsubstAfter inp (utf8Len pre) rest0 = some (c', t') →
      Valid inp t' := by
  intro rest0 c' t' hin h
  cases rest0 with
  | nil =>
    rw [bsubstAfter] at h
    simp only [Option.some.injEq, Prod.mk.injEq] at h
    obtain ⟨-, ht⟩ := h
    subst ht
    exact ⟨rfl, pre, by simpa using hin, rfl⟩
  | cons c rest =>
    have hin2 : inp = (pre ++ [c]) ++ rest := by simpa using hin
    have hvt2 : Valid inp ⟨inp, utf8Len pre + c.utf8Size, rest⟩ := by
      have h2 := valid_mk inp (pre ++ [c]) rest hin2
      rwa [utf8Len_snoc] at h2
    have hvt3 : ∀ (p : Char → Bool) (k : Nat),
        Valid inp ⟨inp, utf8Len pre + c.utf8Size + utf8Len ((rest.takeWhile p).take k),
                   rest.drop ((rest.takeWhile p).take k).length⟩ := by
      intro p k
      have hsplit := takeWhile_take_append p rest k
      have hin3 : inp = (pre ++ c :: (rest.takeWhile p).take k)
          ++ rest.drop ((rest.takeWhile p).take k).length := by
        have : inp = pre ++ c :: ((rest.takeWhile p).take k
            ++ rest.drop ((rest.takeWhile p).take k).length) := by
          rw [hsplit]
          exact hin
        simpa using this
      have h2 := valid_mk inp (pre ++ c :: (rest.takeWhile p).take k) _ hin3
      have hidx : utf8Len (pre ++ c :: (rest.takeWhile p).take k) =
          utf8Len pre + c.utf8Size + utf8Len ((rest.takeWhile p).take k) := by
        simp [utf8Len_append, utf8Len]
        omega
      rwa [hidx] at h2
    have hreset : ∀ (tz : Tokenizer),
        tz.input = inp →
        tz.reset_to (utf8Len pre + c.utf8Size) =
          some ⟨inp, utf8Len pre + c.utf8Size, rest⟩ := by
      intro tz htz
      rw [Tokenizer.reset_to, htz]
      have hmark : utf8Len pre + c.utf8Size = utf8Len (pre ++ [c]) :=
        (utf8Len_snoc pre c).symm
      rw [hmark, hin2, dropBytes_exact]
      simp only [Option.map_some']
    simp only [bsubstAfter] at h
    by_cases e1 : c = 'a'
    · rw [if_pos e1] at h
      simp only [Option.some.injEq, Prod.mk.injEq] at h
      exact h.2 ▸ hvt2
    rw [if_neg e1] at h
    by_cases e2 : c = 'b'
    · rw [if_pos e2] at h
      simp only [Option.some.injEq, Prod.mk.injEq] at h
      exact h.2 ▸ hvt2
    rw [if_neg e2] at h
    by_cases e3 : c = 'f'
    · rw [if_pos e3] at h
      simp only [Option.some.injEq, Prod.mk.injEq] at h
      exact h.2 ▸ hvt2
    rw [if_neg e3] at h
    by_cases e4 : c = 'n'
    · rw [if_pos e4] at h
      simp only [Option.some.injEq, Prod.mk.injEq] at h
      exact h.2 ▸ hvt2
    rw [if_neg e4] at h
    by_cases e5 : c = 'r'
    · rw [if_pos e5] at h
      simp only [Option.some.injEq, Prod.mk.injEq] at h
      exact h.2 ▸ hvt2
    rw [if_neg e5] at h
    by_cases e6 : c = 't'
    · rw [if_pos e6] at h
      simp only [Option.some.injEq, Prod.mk.injEq] at h
      exact h.2 ▸ hvt2
    rw [if_neg e6] at h
    by_cases e7 : c = 'v'
    · rw [if_pos e7] at h
      simp only [Option.some.injEq, Prod.mk.injEq] at h
      exact h.2 ▸ hvt2
    rw [if_neg e7] at h
    by_cases e8 : isOctDigit c = true
    · rw [if_pos e8] at h
      by_cases e9 : radixVal 8 (c :: List.take 2 (List.takeWhile isOctDigit rest)) 0 ≤ 255
      · rw [if_pos e9] at h
        simp only [Option.some.injEq, Prod.mk.injEq] at h
        exact h.2 ▸ hvt3 isOctDigit 2
      · rw [if_neg e9] at h
        exact absurd h (by simp)
    rw [if_neg e8] at h
    by_cases e10 : (c = 'x' ∨ c = 'u' ∨ c = 'U')
    · have e10b : (decide (c = 'x') || decide (c = 'u') || decide (c = 'U')) = true := by
        rcases e10 with h | h | h <;> simp [h]
      rw [if_pos e10b] at h
      by_cases e11 : List.take (if c = 'x' then 2 else if c = 'u' then 4 else 8)
          (List.takeWhile isHexDigit rest) = []
      · rw [if_pos e11] at h
        simp only [Option.some.injEq, Prod.mk.injEq] at h
        exact h.2 ▸ hvt2
      · rw [if_neg e11] at h
        by_cases e12 : Nat.isValidChar (radixVal 16
            (List.take (if c = 'x' then 2 else if c = 'u' then 4 else 8)
              (List.takeWhile isHexDigit rest)) 0)
        · rw [if_pos e12] at h
          simp only [Option.some.injEq, Prod.mk.injEq] at h
          exact h.2 ▸ hvt3 isHexDigit (if c = 'x' then 2 else if c = 'u' then 4 else 8)
        · rw [if_neg e12] at h
          rw [hreset _ rfl] at h
          simp only [Option.map_some', Option.some.injEq, Prod.mk.injEq] at h
          exact h.2 ▸ hvt2
    · have e10b : (decide (c = 'x') || decide (c = 'u') || decide (c = 'U')) = false := by
        push_neg at e10
        simp [e10.1, e10.2.1, e10.2.2]
      rw [e10b] at h
      rw [if_neg (by simp)] at h
      simp only [Option.some.injEq, Prod.mk.injEq] at h
      exact h.2 ▸ hvt2

theorem valid_bsubst (inp : List Char) (t t' : Tokenizer) (c' : Char)
    (hv : Valid inp t) (h : t.backslash_subst = some (c', t')) :
    Valid inp t' := by
  obtain ⟨ti, ix, cs⟩ := t
  obtain ⟨hti, pre, hpre, hidx⟩ := hv
  simp only at hti hidx
  rw [Tokenizer.backslash_subst] at h
  simp only at h
  split at h
  next rest0 heq =>
    have hpre1 : inp = (pre ++ ['\\']) ++ heq := by simpa using hpre
    have hix1 : ix + 1 = utf8Len (pre ++ ['\\']) := by
      rw [utf8Len_snoc, hidx]
      rfl
    rw [hti, hix1] at h
    exact valid_bsubstAfter inp (pre ++ ['\\']) heq c' t' hpre1 h
  next =>
    exact absurd h (by simp)

theorem reach_valid (inp : List Char) (t : Tokenizer) (h : Reach inp t) :
    Valid inp t := by
  induction h with
  | base => exact ⟨rfl, [], rfl, rfl⟩
  | stepNext t _ ih => exact valid_next inp t ih
  | stepSkipWhile p t _ ih =>
    obtain ⟨ti, ix, cs⟩ := t
    exact valid_skip_while inp p cs ti ix ih
  | stepSkipOver t n _ ih => exact valid_skip_over inp n t ih
  | stepBsubst t t' c _ hb ih => exact valid_bsubst inp t t' c ih hb
  | stepReset t tm t' _ _ hr iht ihm => exact valid_reset inp t tm t' iht ihm hr

/-- Two boundary decompositions of the same input with ordered byte
lengths: the shorter consumed part extends to the longer one. -/
theorem boundary_split (inp pm sm pt st : List Char)
    (hm : inp = pm ++ sm) (ht : inp = pt ++ st)
    (hle : utf8Len pm ≤ utf8Len pt) :
    ∃ mid, pt = pm ++ mid ∧ sm = mid ++ st := by
  have h : pm ++ sm = pt ++ st := hm.symm.trans ht
  rcases List.append_eq_append_iff.mp h with ⟨a, ha1, ha2⟩ | ⟨c, hc1, hc2⟩
  · exact ⟨a, ha1, ha2⟩
  · have hz : utf8Len c = 0 := by
      rw [hc1, utf8Len_append] at hle
      omega
    have hc0 : c = [] := utf8Len_eq_zero hz
    subst hc0
    refine ⟨[], by simpa using hc1.symm, by simpa using hc2.symm⟩

/-- Claim C10: after any sequence of tokenizer operations (`next`/`skip`,
`skip_while`, `skip_over`, `backslash_subst`, `reset_to` at a previously
returned mark), the byte index never exceeds the input's byte length and
always lies on a UTF-8 character boundary; consequently the slicings of
`as_str`, `reset_to`, `token` and `token2` at marks from `mark()` all
succeed (`isSome`, i.e. no panic). -/
theorem C10_tokenizer_index_safety (inp : List Char) (t tm : Tokenizer)
    (ht : Reach inp t) (htm : Reach inp tm) (hle : tm.index ≤ t.index) :
    (t.index ≤ utf8Len inp ∧ IsBoundary inp t.index) ∧
    (t.as_str).isSome = true ∧
    (t.reset_to tm.index).isSome = true ∧
    (t.token tm.index).isSome = true ∧
    (t.token2 tm.index t.index).isSome = true := by
  obtain ⟨hti, pt, hpt, hit⟩ := reach_valid inp t ht
  obtain ⟨htim, pm, hpm, him⟩ := reach_valid inp tm htm
  have hlen : utf8Len pm ≤ utf8Len pt := by
    rw [him, hit] at hle
    exact hle
  obtain ⟨mid, hmid1, hmid2⟩ :=
    boundary_split inp pm tm.chars pt t.chars hpm hpt hlen
  have hpm2 : inp = pm ++ (mid ++ t.chars) := by
    rw [hpm, hmid2]
  have hdiff : t.index - utf8Len pm = utf8Len mid := by
    rw [hit, hmid1, utf8Len_append]
    omega
  refine ⟨⟨?_, pt, t.chars, hpt, hit⟩, ?_, ?_, ?_, ?_⟩
  · rw [hit, hpt, utf8Len_append]
    omega
  · rw [Tokenizer.as_str, hti, hit, hpt, dropBytes_exact]
    rfl
  · rw [Tokenizer.reset_to, hti, him, hpm, dropBytes_exact]
    rfl
  · rw [Tokenizer.token, tokenSlice, if_pos hle, hti, him, hpm2,
      dropBytes_exact, hdiff]
    rw [Option.some_bind, takeBytes_exact]
    rfl
  · rw [Tokenizer.token2, tokenSlice, if_pos hle, hti, him, hpm2,
      dropBytes_exact, hdiff]
    rw [Option.some_bind, takeBytes_exact]
    rfl

theorem C10_tokenizer_index_safety_witness :
    ((((Tokenizer.new ['é', 'b']).next.2).index ≤ utf8Len ['é', 'b'] ∧
      IsBoundary ['é', 'b'] ((Tokenizer.new ['é', 'b']).next.2).index) ∧
     (((Tokenizer.new ['é', 'b']).next.2).as_str).isSome = true ∧
     (((Tokenizer.new ['é', 'b']).next.2).reset_to
        (Tokenizer.new ['é', 'b']).index).isSome = true ∧
     (((Tokenizer.new ['é', 'b']).next.2).token
        (Tokenizer.new ['é', 'b']).index).isSome = true ∧
     (((Tokenizer.new ['é', 'b']).next.2).token2
        (Tokenizer.new ['é', 'b']).index
        ((Tokenizer.new ['é', 'b']).next.2).index).isSome = true) :=
  C10_tokenizer_index_safety ['é', 'b'] (Tokenizer.new ['é', 'b']).next.2
    (Tokenizer.new ['é', 'b'])
    (Reach.stepNext _ (Reach.base))
    Reach.base
    (by decide)
